import Mathlib

/-!
Shallow embedding of the resume-parser pipeline of `parser_api.py`.

Text is modelled as `List Char` (Lean `Char` is a Unicode scalar value, as in
Python 3).  The regular-expression substitutions and scans of the source are
modelled as explicit character-level scanners; where a scanner is not
structurally recursive it takes a fuel argument, and the wrapper passes the
length of the input, which is always sufficient because every step consumes at
least one character.  External effects (the filesystem, `pdfplumber`,
`python-docx`, the skill-catalog file and the spaCy model) are passed as
explicit oracle arguments.
-/

/-- The set of characters matched by Python `\s` (and stripped by
`str.strip()`): ASCII whitespace, the C1 separators, and the Unicode space
separators.  Written over code points. -/
def isPySpace (c : Char) : Bool :=
  let n := c.toNat
  n = 32 || n = 9 || n = 10 || n = 13 || n = 11 || n = 12 ||
  n = 0x1c || n = 0x1d || n = 0x1e || n = 0x1f || n = 0x85 || n = 0xa0 ||
  n = 0x1680 || (0x2000 ≤ n && n ≤ 0x200a) || n = 0x2028 || n = 0x2029 ||
  n = 0x202f || n = 0x205f || n = 0x3000

/-- Characters with code point above `\x7F`: exactly the class `[^\x00-\x7F]`
of cleaning step 3. -/
def isHighChar (c : Char) : Bool := 127 < c.toNat

/-- ASCII letter, the class `[a-z]` under `re.IGNORECASE` of cleaning step 1. -/
def isAsciiAlpha (c : Char) : Bool :=
  (65 ≤ c.toNat && c.toNat ≤ 90) || (97 ≤ c.toNat && c.toNat ≤ 122)

/-- ASCII uppercase letter, the class `[A-Z]`. -/
def isUpperAlpha (c : Char) : Bool := 65 ≤ c.toNat && c.toNat ≤ 90

/-- ASCII lowercase letter, the class `[a-z]`. -/
def isLowerAlpha (c : Char) : Bool := 97 ≤ c.toNat && c.toNat ≤ 122

/-- ASCII digit, the class `\d` (the pipeline only ever feeds it ASCII). -/
def isAsciiDigit (c : Char) : Bool := 48 ≤ c.toNat && c.toNat ≤ 57

/-- ASCII lowering of one character, as Python `str.lower()` acts on ASCII.
In the pipeline `str.lower()` only ever runs after cleaning step 3 has removed
every character above `\x7F`, so the ASCII action is the faithful one. -/
def asciiLower (c : Char) : Char :=
  if 65 ≤ c.toNat ∧ c.toNat ≤ 90 then Char.ofNat (c.toNat + 32) else c

/-- ASCII raising of one character, used by the model of `str.title()`. -/
def asciiUpper (c : Char) : Char :=
  if 97 ≤ c.toNat ∧ c.toNat ≤ 122 then Char.ofNat (c.toNat - 32) else c

/-- Replace every maximal run of characters satisfying `p` by a single space,
keeping all other characters: the action of `re.sub(cls+, ' ', text)` for a
character class `cls`.  The Boolean records whether the scanner is inside a
run. -/
def collapseRuns (p : Char → Bool) : Bool → List Char → List Char
  | _, [] => []
  | inRun, c :: r =>
    if p c then
      if inRun then collapseRuns p true r else ' ' :: collapseRuns p true r
    else c :: collapseRuns p false r

/-- Remove a trailing run of Python whitespace, the right half of
`str.strip()`. -/
def rtrimWs : List Char → List Char
  | [] => []
  | c :: r =>
    match rtrimWs r with
    | [] => if isPySpace c then [] else [c]
    | l => c :: l

/-- Python `str.strip()`: drop leading and trailing whitespace. -/
def pyStrip (l : List Char) : List Char := rtrimWs (l.dropWhile isPySpace)

/-- The tail of a match of `-\s*\n\s*([a-z])` (cleaning step 1) directly after
a matched letter: a hyphen, then a whitespace run that contains at least one
newline, then a letter.  The match always consumes the whole whitespace run,
because the run is bounded by the hyphen before it and the letter after it.
Returns the second letter and the rest of the input. -/
def hyphenTail (rest : List Char) : Option (Char × List Char) :=
  match rest with
  | [] => none
  | c :: rest2 =>
    if c = '-' then
      if '\n' ∈ rest2.takeWhile isPySpace then
        match rest2.dropWhile isPySpace with
        | c2 :: rest3 => if isAsciiAlpha c2 then some (c2, rest3) else none
        | [] => none
      else none
    else none

/-- Cleaning step 1, `re.sub(r'([a-z])-\s*\n\s*([a-z])', r'\1\2', text,
flags=re.IGNORECASE)`: a letter, a hyphen, a whitespace run containing at
least one newline, and a letter collapse to the two letters.  Scanning is
leftmost and resumes after a replacement, as in `re.sub`.  Fuel: each step
consumes at least one character. -/
def dehyphenate : Nat → List Char → List Char
  | 0, l => l
  | _ + 1, [] => []
  | fuel + 1, c1 :: rest =>
    if isAsciiAlpha c1 then
      match hyphenTail rest with
      | some (c2, rest3) => c1 :: c2 :: dehyphenate fuel rest3
      | none => c1 :: dehyphenate fuel rest
    else c1 :: dehyphenate fuel rest

/-- Suffix of a list after its last newline (the backtracking of the final
`\s*` in `\n\s*\d+\s*\n`: the engine ends the match at the last newline of the
whitespace run). -/
def afterLastNewline (w : List Char) : List Char :=
  (w.reverse.takeWhile (fun c => c ≠ '\n')).reverse

/-- Attempt to match `\s*\d+\s*\n` directly after a scanned newline, for
cleaning step 2.  Returns the rest of the input after the match.   The first
`\s*` and the `\d+` are maximal runs (their classes are disjoint from what
follows); the final `\s*\n` succeeds exactly when the whitespace run after the
digits contains a newline, and ends at its last newline. -/
def pageNumTail (l : List Char) : Option (List Char) :=
  let r1 := l.dropWhile isPySpace
  let d := r1.takeWhile isAsciiDigit
  let r2 := r1.dropWhile isAsciiDigit
  if d = [] then none
  else
    let w2 := r2.takeWhile isPySpace
    if '\n' ∈ w2 then some (afterLastNewline w2 ++ r2.dropWhile isPySpace)
    else none

/-- Cleaning step 2, `re.sub(r'\n\s*\d+\s*\n', '\n', text)`: a line holding
only a number collapses, together with its surrounding newlines, to one
newline.  Leftmost scan, resuming after each replacement. -/
def numLineStrip : Nat → List Char → List Char
  | 0, l => l
  | _ + 1, [] => []
  | fuel + 1, c :: rest =>
    if c = '\n' then
      match pageNumTail rest with
      | some rest2 => '\n' :: numLineStrip fuel rest2
      | none => '\n' :: numLineStrip fuel rest
    else c :: numLineStrip fuel rest

/-- `clean_resume_text` of `parser_api.py`: the five-step normalizer.
Step 1 merges hyphenated line breaks, step 2 strips number-only lines, step 3
replaces runs of non-ASCII characters by one space, step 4 collapses
whitespace runs to one space and strips the ends, step 5 lowercases.  The
guard `if not raw_text: return ""` is the empty-list test. -/
def cleanChars (raw_text : List Char) : List Char :=
  if raw_text = [] then []
  else
    let t1 := dehyphenate raw_text.length raw_text
    let t2 := numLineStrip t1.length t1
    let t3 := collapseRuns isHighChar false t2
    let t4 := collapseRuns isPySpace false t3
    (pyStrip t4).map asciiLower

/-- `clean_resume_text` on `String`, the type of the Python value. -/
def clean_resume_text (raw_text : String) : String := ⟨cleanChars raw_text.data⟩

/-- Steps 3 to 5 of the normalizer (non-ASCII removal, whitespace collapse,
strip, lowercase), shared by the lemmas below: `cleanChars` on non-empty input
is `normTail` of the output of steps 1 and 2. -/
def normTail (t2 : List Char) : List Char :=
  (pyStrip (collapseRuns isPySpace false (collapseRuns isHighChar false t2))).map asciiLower

/-- No two adjacent characters are both Python whitespace. -/
def noTwoWs : List Char → Bool
  | [] => true
  | [_] => true
  | a :: b :: r => (!(isPySpace a && isPySpace b)) && noTwoWs (b :: r)

/-- Every character is ASCII (code point at most 127). -/
def allAscii (l : List Char) : Bool := l.all fun c => decide (c.toNat ≤ 127)

/-- Split on newlines, as Python `str.split('\n')`: the result is never empty
and keeps empty segments. -/
def splitNl : List Char → List (List Char)
  | [] => [[]]
  | c :: r =>
    if c = '\n' then [] :: splitNl r
    else
      match splitNl r with
      | [] => [[c]]
      | h :: t => (c :: h) :: t

/-- Number of maximal non-whitespace runs: `len(s.split())` in Python.  The
Boolean records whether the scanner is inside a run. -/
def countTokens : Bool → List Char → Nat
  | _, [] => 0
  | inWord, c :: r =>
    if isPySpace c then countTokens false r
    else (if inWord then 0 else 1) + countTokens true r

/-- Python `str.title()` on ASCII letters: an ASCII letter is uppercased when
the previous character is not an ASCII letter and lowercased otherwise; other
characters pass through and reset the state. -/
def pyTitle : Bool → List Char → List Char
  | _, [] => []
  | prev, c :: r =>
    if isAsciiAlpha c then (if prev then asciiLower c else asciiUpper c) :: pyTitle true r
    else c :: pyTitle false r

/-- The separator class `[|:,-]` removed from the name candidate. -/
def isSepChar (c : Char) : Bool := c = '|' || c = ':' || c = ',' || c = '-'

/-- Tail of a match of `[a-z]+ [A-Z][a-z]+(?: [A-Z][a-z]+)?` after the
leading capital.  Each `[a-z]+` is the maximal lowercase run (backtracking it
cannot help, since the following pattern characters are not lowercase
letters); the optional third word is taken greedily when it matches. -/
def titleTail (r1 : List Char) : Option (List Char) :=
  let low1 := r1.takeWhile isLowerAlpha
  if low1 = [] then none
  else
    match r1.dropWhile isLowerAlpha with
    | ' ' :: c2 :: r4 =>
      if isUpperAlpha c2 then
        let low2 := r4.takeWhile isLowerAlpha
        if low2 = [] then none
        else
          let base := low1 ++ ' ' :: c2 :: low2
          match r4.dropWhile isLowerAlpha with
          | ' ' :: c3 :: r6 =>
            if isUpperAlpha c3 then
              let low3 := r6.takeWhile isLowerAlpha
              if low3 = [] then some base
              else some (base ++ ' ' :: c3 :: low3)
            else some base
          | _ => some base
      else none
    | _ => none

/-- Match of `[A-Z][a-z]+ [A-Z][a-z]+(?: [A-Z][a-z]+)?` anchored at the head
of the input: a capital followed by a `titleTail` match. -/
def matchTitleAt (l : List Char) : Option (List Char) :=
  match l with
  | [] => none
  | c1 :: r1 =>
    if isUpperAlpha c1 then (titleTail r1).map fun t => c1 :: t else none

/-- Leftmost match of the Title-Case name pattern: the head of
`re.findall(r'[A-Z][a-z]+ [A-Z][a-z]+(?: [A-Z][a-z]+)?', raw_text)`. -/
def findTitle : Nat → List Char → Option (List Char)
  | 0, _ => none
  | _ + 1, [] => none
  | fuel + 1, c :: r =>
    match matchTitleAt (c :: r) with
    | some m => some m
    | none => findTitle fuel r

/-- `extract_name` of `parser_api.py`: first line of the stripped raw text,
separators removed and stripped; on more than 5 tokens or fewer than 4
characters, fall back to the first Title-Case two-or-three-word match of the
raw text, or the literal sentinel. -/
def extract_name (raw_text : String) : String :=
  let lines := splitNl (pyStrip raw_text.data)
  let name_candidate := pyStrip (lines.headD [])
  let name := pyStrip (name_candidate.filter fun c => !isSepChar c)
  if 5 < countTokens false name ∨ name.length < 4 then
    match findTitle raw_text.data.length raw_text.data with
    | some m => ⟨pyTitle false m⟩
    | none => "N/A (Failed Fallback)"
  else ⟨pyTitle false name⟩

/-- The first line of the raw text whose content is not all whitespace (and
the empty list when there is none): the reading of the specification phrase
"first non-empty line". -/
def firstNonBlankLine (raw : List Char) : List Char :=
  ((splitNl raw).find? fun l => !(l.dropWhile isPySpace).isEmpty).getD []

/-- The ASCII fragment of the class `\w`: letters, digits and underscore.
The pipeline feeds these extractors lowercased ASCII text. -/
def pyWordChar (c : Char) : Bool := isAsciiAlpha c || isAsciiDigit c || c = '_'

/-- Character of the email classes `[\w\.-]`. -/
def emailChar (c : Char) : Bool := pyWordChar c || c = '.' || c = '-'

/-- Leftmost match of `[\w\.-]+@[\w\.-]+`: a maximal run of email characters
must be followed by `@` and at least one email character (`@` is not in the
class, so backtracking inside the first `+` cannot help).  On failure the
scan advances one character. -/
def findEmail : Nat → List Char → Option (List Char)
  | 0, _ => none
  | _ + 1, [] => none
  | fuel + 1, c :: r =>
    if emailChar c then
      match (c :: r).dropWhile emailChar with
      | '@' :: r2 =>
        let run2 := r2.takeWhile emailChar
        if run2 = [] then findEmail fuel r
        else some ((c :: r).takeWhile emailChar ++ '@' :: run2)
      | _ => findEmail fuel r
    else findEmail fuel r

/-- `extract_email` of `parser_api.py`: first match or `None`. -/
def extract_email (text : String) : Option String :=
  (findEmail text.data.length text.data).map fun l => ⟨l⟩

/-- Exactly `n` ASCII digits; returns the digits and the rest. -/
def takeNDigits : Nat → List Char → Option (List Char × List Char)
  | 0, l => some ([], l)
  | _ + 1, [] => none
  | n + 1, c :: r =>
    if isAsciiDigit c then (takeNDigits n r).map fun p => (c :: p.1, p.2) else none

/-- The optional separator `[-\s]?`: consumed when present.  If digits are
required next and the next character is a separator, consuming it is the only
way the pattern can proceed, since a separator is never a digit. -/
def takeOptSep : List Char → List Char × List Char
  | [] => ([], [])
  | c :: r => if c = '-' || isPySpace c then ([c], r) else ([], c :: r)

/-- First phone alternative `\d{3}[-\s]?\d{3}[-\s]?\d{4}` anchored at the
head; returns the matched text and the rest. -/
def phoneAlt1 (l : List Char) : Option (List Char × List Char) :=
  (takeNDigits 3 l).bind fun p1 =>
    let s1 := takeOptSep p1.2
    (takeNDigits 3 s1.2).bind fun p2 =>
      let s2 := takeOptSep p2.2
      (takeNDigits 4 s2.2).map fun p3 =>
        (p1.1 ++ s1.1 ++ p2.1 ++ s2.1 ++ p3.1, p3.2)

/-- Second phone alternative `\(\d{3}\)\s*\d{3}[-\s]?\d{4}` anchored at the
head.  The `\s*` is the maximal whitespace run (digits follow, and the
classes are disjoint). -/
def phoneAlt2 (l : List Char) : Option (List Char × List Char) :=
  match l with
  | '(' :: r =>
    (takeNDigits 3 r).bind fun p1 =>
      match p1.2 with
      | ')' :: r2 =>
        (takeNDigits 3 (r2.dropWhile isPySpace)).bind fun p2 =>
          let s := takeOptSep p2.2
          (takeNDigits 4 s.2).map fun p3 =>
            ('(' :: p1.1 ++ ')' :: r2.takeWhile isPySpace ++ p2.1 ++ s.1 ++ p3.1, p3.2)
      | _ => none
  | _ => none

/-- Third phone alternative `\d{10,15}` anchored at the head: the maximal
digit run when it has at least 10 digits, truncated greedily at 15. -/
def phoneAlt3 (l : List Char) : Option (List Char × List Char) :=
  let d := l.takeWhile isAsciiDigit
  if 10 ≤ d.length then some (d.take 15, l.drop (min d.length 15)) else none

/-- The phone alternation, alternatives tried in source order. -/
def phoneMatchAt (l : List Char) : Option (List Char × List Char) :=
  (phoneAlt1 l).orElse fun _ => (phoneAlt2 l).orElse fun _ => phoneAlt3 l

/-- `re.findall` of the phone pattern: leftmost non-overlapping matches. -/
def findPhones : Nat → List Char → List (List Char)
  | 0, _ => []
  | _ + 1, [] => []
  | fuel + 1, c :: r =>
    match phoneMatchAt (c :: r) with
    | some (m, rest) => m :: findPhones fuel rest
    | none => findPhones fuel r

/-- `extract_phone_number` of `parser_api.py`: find all candidates, strip
non-digits from each, return the first whose digit count is between 10 and 15
inclusive, else `None`. -/
def extract_phone_number (text : String) : Option String :=
  let phone := findPhones text.data.length text.data
  let cleaned_phone := phone.map fun p => p.filter isAsciiDigit
  (cleaned_phone.find? fun p => decide (10 ≤ p.length) && decide (p.length ≤ 15)).map
    fun l => (⟨l⟩ : String)

/-- The URL body class: the alternation `[a-zA-Z]`, `[0-9]`, `[$-_@.&+]`
(a code-point range from 0x24 to 0x5F, which already contains `@`, `.`, `&`,
`+` and `%`), and `[!*\(\),]`.  The `%xx` escape branch never extends a match
beyond this set because `%` is inside the range. -/
def urlChar (c : Char) : Bool :=
  isAsciiAlpha c || isAsciiDigit c || (36 ≤ c.toNat && c.toNat ≤ 95) ||
  c = '!' || c = '*' || c = '\\' || c = '(' || c = ')' || c = ','

/-- `re.findall` of `http[s]?://` followed by at least one URL character:
leftmost matches, with `[s]?` greedy and the body run maximal. -/
def findUrls : Nat → List Char → List (List Char)
  | 0, _ => []
  | _ + 1, [] => []
  | fuel + 1, c :: r =>
    if "https://".data.isPrefixOf (c :: r) then
      let rest := (c :: r).drop 8
      if rest.takeWhile urlChar = [] then findUrls fuel r
      else ("https://".data ++ rest.takeWhile urlChar) :: findUrls fuel (rest.dropWhile urlChar)
    else if "http://".data.isPrefixOf (c :: r) then
      let rest := (c :: r).drop 7
      if rest.takeWhile urlChar = [] then findUrls fuel r
      else ("http://".data ++ rest.takeWhile urlChar) :: findUrls fuel (rest.dropWhile urlChar)
    else findUrls fuel r

/-- `needle` occurs as a contiguous substring of `hay`: the Python `in`
operator on strings. -/
def containsSub (needle hay : List Char) : Bool :=
  (List.range (hay.length + 1)).any fun i => needle.isPrefixOf (hay.drop i)

/-- `extract_urls` of `parser_api.py`: all URL matches containing `linkedin`
or `github` case-insensitively. -/
def extract_urls (text : String) : List String :=
  let urls := findUrls text.data.length text.data
  let relevant_urls := urls.filter fun u =>
    containsSub "linkedin".data (u.map asciiLower) || containsSub "github".data (u.map asciiLower)
  relevant_urls.map fun l => (⟨l⟩ : String)

/-- Position `i` of `t` is a `\b` word boundary: exactly one of the adjacent
positions holds a word character (positions outside the text count as
non-word). -/
def isBoundary (t : List Char) (i : Nat) : Bool :=
  (decide (0 < i) && pyWordChar (t.getD (i - 1) ' ')) != pyWordChar (t.getD i ' ')

/-- `re.search` of `\b` + an escaped literal + `\b`: some position of `t`
starts the literal `skill` with word boundaries on both sides. -/
def wordSearch (skill t : List Char) : Bool :=
  (List.range (t.length + 1)).any fun i =>
    isBoundary t i && skill.isPrefixOf (t.drop i) && isBoundary t (i + skill.length)

/-- `extract_skills` of `parser_api.py`.  The catalog file is an oracle:
`none` models `FileNotFoundError`, `some fileLines` the lines of
`skills.txt`.  Matching entries are collected into a set; the set is modelled
as a deduplicated list (Python set order is arbitrary). -/
def extract_skills (skillsFile : Option (List String)) (cleaned_text : String) : List String :=
  match skillsFile with
  | none => ["WARNING: skills.txt missing. Cannot extract skills."]
  | some fileLines =>
    let skill_list := fileLines.map fun line => ((⟨(pyStrip line.data).map asciiLower⟩ : String))
    (skill_list.filter fun skill => wordSearch skill.data cleaned_text.data).dedup

/-- One annotated span of the entity model: surface text and category label
(spaCy labels such as `ORG` and `DATE`). -/
structure EntSpan where
  text : String
  label : String
deriving DecidableEq

/-- Result of entity extraction: the error dictionary
`{"error": ...}` or the list of formatted entities. -/
inductive EntResult where
  | failure (msg : String)
  | ok (ents : List String)
deriving DecidableEq

/-- The per-span filter and format of `extract_nlp_entities`: a span is kept
when its label is `ORG` or `DATE` or its text contains `education` or
`experience` case-insensitively, and additionally it has more than one token
or the label is `DATE`; a kept span is formatted as `"<text> (<LABEL>)"`. -/
def keepEntity (e : EntSpan) : Option String :=
  if (e.label == "ORG" || e.label == "DATE")
      || containsSub "education".data (e.text.data.map asciiLower)
      || containsSub "experience".data (e.text.data.map asciiLower) then
    if decide (1 < countTokens false (pyStrip e.text.data)) || e.label == "DATE" then
      some ((⟨pyStrip e.text.data⟩ : String) ++ " (" ++ e.label ++ ")")
    else none
  else none

/-- `extract_nlp_entities` of `parser_api.py`.  The spaCy model is an oracle:
`none` models the failed load (`nlp is None`), `some nlpFn` the annotated
spans produced for a given text.  Kept spans are formatted, deduplicated and
truncated to 5 (Python builds a set; the set is modelled as a deduplicated
list, since set iteration order is arbitrary). -/
def extract_nlp_entities (nlpModel : Option (String → List EntSpan))
    (cleaned_text : String) : EntResult :=
  match nlpModel with
  | none => .failure "NLP model not loaded. Check setup."
  | some nlpFn => .ok (((nlpFn cleaned_text).filterMap keepEntity).dedup.take 5)

/-- Outcome of opening an external document: success with the library value,
`FileNotFoundError`, or any other library failure with its message. -/
inductive FsOutcome (α : Type) where
  | ok (val : α)
  | missing
  | failed (msg : String)
deriving DecidableEq

/-- The generator filter of `extract_text_from_pdf`: a page participates
exactly when `page.extract_text()` is truthy, that is, neither `None` nor the
empty string.  A PDF is modelled as its list of pages, each yielding its
`page.extract_text()` value. -/
def truthyPage (pg : Option String) : Option String :=
  match pg with
  | some s => if s = "" then none else some s
  | none => none

/-- `extract_text_from_pdf` of `parser_api.py`: truthy page texts joined with
newlines. -/
def extract_text_from_pdf (pdfFile : FsOutcome (List (Option String))) : String :=
  match pdfFile with
  | .ok pages => String.intercalate "\n" (pages.filterMap truthyPage)
  | .missing => "Error: File not found."
  | .failed e => "Error extracting PDF: " ++ e

/-- `extract_text_from_docx` of `parser_api.py`: paragraph texts joined with
newlines, empty paragraphs kept. -/
def extract_text_from_docx (docxFile : FsOutcome (List String)) : String :=
  match docxFile with
  | .ok paras => String.intercalate "\n" paras
  | .missing => "Error: File not found."
  | .failed e => "Error extracting DOCX: " ++ e

/-- The success record assembled by `parse_resume`. -/
structure ParsedResume where
  name : String
  email : Option String
  phone : Option String
  urls : List String
  skills : List String
  nlp_entities : EntResult
  raw_text_length : Nat
deriving DecidableEq

/-- Return value of `parse_resume`: the error dictionary `{"error": ...}` or
the seven-field success dictionary. -/
inductive ParseResult where
  | err (msg : String)
  | ok (res : ParsedResume)
deriving DecidableEq

/-- The keys of the returned dictionary. -/
def resultFields : ParseResult → List String
  | .err _ => ["error"]
  | .ok _ => ["name", "email", "phone", "urls", "skills", "nlp_entities", "raw_text_length"]

/-- `file_path.lower().endswith(ext)`. -/
def lowerEndsWith (path : String) (ext : String) : Bool :=
  let lowered := path.data.map asciiLower
  ext.data.isPrefixOf (lowered.drop (lowered.length - ext.data.length))

/-- The tail of `parse_resume` after text extraction: the guard
`if "Error" in raw_text` and the assembly of the structured record. -/
def assemble (raw_text : String) (skillsFile : Option (List String))
    (nlpModel : Option (String → List EntSpan)) : ParseResult :=
  if containsSub "Error".data raw_text.data then .err raw_text
  else
    let cleaned_text := clean_resume_text raw_text
    .ok {
      name := extract_name raw_text
      email := extract_email cleaned_text
      phone := extract_phone_number cleaned_text
      urls := extract_urls cleaned_text
      skills := extract_skills skillsFile cleaned_text
      nlp_entities := extract_nlp_entities nlpModel cleaned_text
      raw_text_length := raw_text.length }

/-- `parse_resume` of `parser_api.py`, the public entry point.  The branches
on the lowercased extension choose the extractor; other extensions return the
unsupported-format error. -/
def parse_resume (file_path : String) (pdfFile : FsOutcome (List (Option String)))
    (docxFile : FsOutcome (List String)) (skillsFile : Option (List String))
    (nlpModel : Option (String → List EntSpan)) : ParseResult :=
  if lowerEndsWith file_path ".pdf" then
    assemble (extract_text_from_pdf pdfFile) skillsFile nlpModel
  else if lowerEndsWith file_path ".docx" then
    assemble (extract_text_from_docx docxFile) skillsFile nlpModel
  else .err "Unsupported file type. Must be PDF or DOCX."

theorem toNat_ofNat_small (n : Nat) (h : n < 55296) : (Char.ofNat n).toNat = n := by
  have hv : n.isValidChar := Or.inl h
  rw [Char.ofNat, dif_pos hv]
  simp [Char.ofNatAux, Char.toNat, UInt32.toNat, BitVec.toNat_ofNatLt]

theorem asciiLower_toNat (c : Char) (h : 65 ≤ c.toNat ∧ c.toNat ≤ 90) :
    (asciiLower c).toNat = c.toNat + 32 := by
  rw [asciiLower, if_pos h]
  exact toNat_ofNat_small _ (by omega)

theorem asciiLower_toNat_le (c : Char) (h : c.toNat ≤ 127) :
    (asciiLower c).toNat ≤ 127 := by
  by_cases hc : 65 ≤ c.toNat ∧ c.toNat ≤ 90
  · rw [asciiLower_toNat c hc]; omega
  · rw [asciiLower, if_neg hc]; exact h

theorem isPySpace_false_midrange (x : Char) (h1 : 33 ≤ x.toNat) (h2 : x.toNat ≤ 127) :
    isPySpace x = false := by
  simp only [isPySpace, Bool.or_eq_false_iff, decide_eq_false_iff_not, Bool.and_eq_false_iff,
    decide_eq_false_iff_not, not_le]
  omega

theorem isPySpace_asciiLower (c : Char) : isPySpace (asciiLower c) = isPySpace c := by
  by_cases hc : 65 ≤ c.toNat ∧ c.toNat ≤ 90
  · rw [isPySpace_false_midrange (asciiLower c) (by rw [asciiLower_toNat c hc]; omega)
      (by rw [asciiLower_toNat c hc]; omega)]
    rw [isPySpace_false_midrange c (by omega) (by omega)]
  · rw [asciiLower, if_neg hc]

theorem asciiLower_asciiLower (c : Char) : asciiLower (asciiLower c) = asciiLower c := by
  by_cases hc : 65 ≤ c.toNat ∧ c.toNat ≤ 90
  · have hn := asciiLower_toNat c hc
    conv_lhs => rw [asciiLower]
    rw [if_neg (by omega)]
  · have hfix : asciiLower c = c := by rw [asciiLower, if_neg hc]
    rw [hfix, hfix]

theorem mem_collapseRuns {p : Char → Bool} {b : Bool} {l : List Char} {x : Char}
    (h : x ∈ collapseRuns p b l) : x = ' ' ∨ (x ∈ l ∧ p x = false) := by
  induction l generalizing b with
  | nil => simp [collapseRuns] at h
  | cons c r ih =>
    rw [collapseRuns] at h
    by_cases hc : p c
    · rw [if_pos hc] at h
      by_cases hb : b
      · subst hb
        rcases ih (b := true) (by simpa using h) with h1 | ⟨h2, h3⟩
        · exact Or.inl h1
        · exact Or.inr ⟨List.mem_cons_of_mem _ h2, h3⟩
      · simp only [hb, if_neg, Bool.false_eq_true, ite_false, List.mem_cons] at h
        rcases h with h0 | h0
        · exact Or.inl h0
        · rcases ih (b := true) h0 with h1 | ⟨h2, h3⟩
          · exact Or.inl h1
          · exact Or.inr ⟨List.mem_cons_of_mem _ h2, h3⟩
    · rw [if_neg hc] at h
      rcases List.mem_cons.mp h with h0 | h0
      · subst h0; exact Or.inr ⟨List.mem_cons_self _ _, by simpa using hc⟩
      · rcases ih (b := false) h0 with h1 | ⟨h2, h3⟩
        · exact Or.inl h1
        · exact Or.inr ⟨List.mem_cons_of_mem _ h2, h3⟩

theorem head?_collapseRuns_true {p : Char → Bool} {l : List Char} {x : Char}
    (h : (collapseRuns p true l).head? = some x) : p x = false := by
  induction l with
  | nil => simp [collapseRuns] at h
  | cons c r ih =>
    rw [collapseRuns] at h
    by_cases hc : p c
    · rw [if_pos hc, if_pos rfl] at h; exact ih h
    · rw [if_neg hc] at h
      simp only [List.head?_cons, Option.some_inj] at h
      subst h; simpa using hc

theorem noTwoWs_cons (a : Char) (t : List Char) :
    noTwoWs (a :: t) =
      ((match t.head? with
        | some x => !(isPySpace a && isPySpace x)
        | none => true) && noTwoWs t) := by
  cases t with
  | nil => rfl
  | cons b r => rfl

theorem noTwoWs_tail {a : Char} {t : List Char} (h : noTwoWs (a :: t) = true) :
    noTwoWs t = true := by
  rw [noTwoWs_cons] at h
  exact (Bool.and_eq_true_iff.mp h).2

theorem noTwoWs_collapseRuns (l : List Char) (b : Bool) :
    noTwoWs (collapseRuns isPySpace b l) = true := by
  induction l generalizing b with
  | nil => rfl
  | cons c r ih =>
    rw [collapseRuns]
    by_cases hc : isPySpace c
    · rw [if_pos hc]
      by_cases hb : b
      · subst hb; rw [if_pos rfl]; exact ih true
      · simp only [hb, Bool.false_eq_true, ite_false]
        rw [noTwoWs_cons]
        refine Bool.and_eq_true_iff.mpr ⟨?_, ih true⟩
        cases hh : (collapseRuns isPySpace true r).head? with
        | none => rfl
        | some x => simp [head?_collapseRuns_true hh]
    · rw [if_neg hc, noTwoWs_cons]
      refine Bool.and_eq_true_iff.mpr ⟨?_, ih false⟩
      cases hh : (collapseRuns isPySpace false r).head? with
      | none => rfl
      | some x => simp [hc]

theorem collapseRuns_eq_self_of_not {p : Char → Bool} {l : List Char}
    (h : ∀ c ∈ l, p c = false) (b : Bool) : collapseRuns p b l = l := by
  induction l generalizing b with
  | nil => rfl
  | cons c r ih =>
    rw [collapseRuns, if_neg (by simp [h c (List.mem_cons_self _ _)]),
      ih (fun x hx => h x (List.mem_cons_of_mem _ hx))]

theorem collapseRuns_ws_fixed {l : List Char} (h1 : noTwoWs l = true)
    (h2 : ∀ c ∈ l, isPySpace c = true → c = ' ') :
    collapseRuns isPySpace false l = l ∧
      ((∀ x ∈ l.head?, isPySpace x = false) → collapseRuns isPySpace true l = l) := by
  induction l with
  | nil => exact ⟨rfl, fun _ => rfl⟩
  | cons c r ih =>
    have h1r : noTwoWs r = true := noTwoWs_tail h1
    have h2r : ∀ x ∈ r, isPySpace x = true → x = ' ' :=
      fun x hx => h2 x (List.mem_cons_of_mem _ hx)
    have IH := ih h1r h2r
    by_cases hc : isPySpace c
    · have hcsp : c = ' ' := h2 c (List.mem_cons_self _ _) hc
      have hrfix : collapseRuns isPySpace true r = r := by
        refine IH.2 ?_
        intro x hx
        cases r with
        | nil => simp at hx
        | cons y r2 =>
          simp only [List.head?_cons, Option.mem_def, Option.some_inj] at hx
          subst hx
          rw [noTwoWs_cons] at h1
          have := (Bool.and_eq_true_iff.mp h1).1
          simp only [List.head?_cons] at this
          cases hy : isPySpace y
          · rfl
          · rw [hc, hy] at this; simp at this
      constructor
      · rw [collapseRuns, if_pos hc]
        simp only [Bool.false_eq_true, ite_false, hrfix]
        rw [hcsp]
      · intro hx
        have := hx c (by simp)
        rw [hc] at this; simp at this
    · have hstep : ∀ b : Bool, collapseRuns isPySpace b (c :: r) = c :: r := by
        intro b
        rw [collapseRuns, if_neg (by simp [hc]), IH.1]
      exact ⟨hstep false, fun _ => hstep true⟩

theorem mem_rtrimWs {l : List Char} {x : Char} (h : x ∈ rtrimWs l) : x ∈ l := by
  induction l with
  | nil => simp [rtrimWs] at h
  | cons c r ih =>
    rw [rtrimWs] at h
    cases hr : rtrimWs r with
    | nil =>
      rw [hr] at h
      by_cases hc : isPySpace c
      · rw [if_pos hc] at h; simp at h
      · rw [if_neg hc] at h
        simp only [List.mem_singleton] at h
        subst h; exact List.mem_cons_self _ _
    | cons y t =>
      rw [hr] at h
      rcases List.mem_cons.mp h with h0 | h0
      · subst h0; exact List.mem_cons_self _ _
      · exact List.mem_cons_of_mem _ (ih (hr ▸ h0))

theorem head?_rtrimWs {l : List Char} (h : rtrimWs l ≠ []) :
    (rtrimWs l).head? = l.head? := by
  cases l with
  | nil => rfl
  | cons c r =>
    cases hr : rtrimWs r with
    | nil =>
      rw [rtrimWs, hr] at h ⊢
      by_cases hc : isPySpace c
      · simp [hc] at h
      · simp [hc]
    | cons y t =>
      rw [rtrimWs, hr]
      rfl

theorem noTwoWs_rtrimWs {l : List Char} (h : noTwoWs l = true) :
    noTwoWs (rtrimWs l) = true := by
  induction l with
  | nil => rfl
  | cons c r ih =>
    cases hr : rtrimWs r with
    | nil =>
      rw [rtrimWs, hr]
      by_cases hc : isPySpace c
      · simp [hc, noTwoWs]
      · simp [hc, noTwoWs]
    | cons y t =>
      rw [rtrimWs, hr]
      have hne : rtrimWs r ≠ [] := by rw [hr]; simp
      have hhead := head?_rtrimWs hne
      rw [hr] at hhead
      cases r with
      | nil => simp [rtrimWs] at hr
      | cons z r2 =>
        simp only [List.head?_cons, Option.some_inj] at hhead
        subst hhead
        rw [noTwoWs_cons] at h ⊢
        simp only [List.head?_cons] at h ⊢
        refine Bool.and_eq_true_iff.mpr ⟨(Bool.and_eq_true_iff.mp h).1, ?_⟩
        rw [← hr]
        exact ih (Bool.and_eq_true_iff.mp h).2

theorem rtrimWs_eq_nil_of_ws {w : List Char} (hw : ∀ c ∈ w, isPySpace c = true) :
    rtrimWs w = [] := by
  induction w with
  | nil => rfl
  | cons c r ih =>
    rw [rtrimWs, ih (fun x hx => hw x (List.mem_cons_of_mem _ hx)),
      if_pos (hw c (List.mem_cons_self _ _))]

theorem rtrimWs_rtrimWs (l : List Char) : rtrimWs (rtrimWs l) = rtrimWs l := by
  induction l with
  | nil => rfl
  | cons c r ih =>
    cases hr : rtrimWs r with
    | nil =>
      rw [rtrimWs, hr]
      by_cases hc : isPySpace c
      · simp [hc, rtrimWs]
      · simp [hc, rtrimWs]
    | cons y t =>
      rw [rtrimWs, hr]
      have : rtrimWs (y :: t) = y :: t := by rw [← hr, ih, hr]
      rw [rtrimWs, this]

theorem rtrimWs_append_ws {l w : List Char} (hw : ∀ c ∈ w, isPySpace c = true) :
    rtrimWs (l ++ w) = rtrimWs l := by
  induction l with
  | nil => simpa using rtrimWs_eq_nil_of_ws hw
  | cons c r ih => rw [List.cons_append, rtrimWs, ih, rtrimWs]

theorem head?_dropWhile_not {p : Char → Bool} {l : List Char} {x : Char}
    (h : (l.dropWhile p).head? = some x) : p x = false := by
  induction l with
  | nil => simp at h
  | cons c r ih =>
    by_cases hc : p c
    · rw [List.dropWhile_cons_of_pos hc] at h; exact ih h
    · rw [List.dropWhile_cons_of_neg hc] at h
      simp only [List.head?_cons, Option.some_inj] at h
      subst h; simpa using hc

theorem noTwoWs_dropWhile {l : List Char} (h : noTwoWs l = true) :
    noTwoWs (l.dropWhile isPySpace) = true := by
  induction l with
  | nil => exact h
  | cons c r ih =>
    by_cases hc : isPySpace c
    · rw [List.dropWhile_cons_of_pos hc]; exact ih (noTwoWs_tail h)
    · rw [List.dropWhile_cons_of_neg hc]; exact h

theorem mem_pyStrip {l : List Char} {x : Char} (h : x ∈ pyStrip l) : x ∈ l :=
  (List.dropWhile_sublist isPySpace).subset (mem_rtrimWs h)

theorem noTwoWs_pyStrip {l : List Char} (h : noTwoWs l = true) :
    noTwoWs (pyStrip l) = true :=
  noTwoWs_rtrimWs (noTwoWs_dropWhile h)

theorem dropWhile_rtrimWs_dropWhile (l : List Char) :
    (rtrimWs (l.dropWhile isPySpace)).dropWhile isPySpace
      = rtrimWs (l.dropWhile isPySpace) := by
  cases hr : rtrimWs (l.dropWhile isPySpace) with
  | nil => rfl
  | cons y t =>
    have hy : isPySpace y = false := by
      have hne : rtrimWs (l.dropWhile isPySpace) ≠ [] := by rw [hr]; simp
      have := head?_rtrimWs hne
      rw [hr] at this
      exact head?_dropWhile_not this.symm
    rw [List.dropWhile_cons_of_neg (by simp [hy])]

theorem pyStrip_pyStrip (l : List Char) : pyStrip (pyStrip l) = pyStrip l := by
  rw [pyStrip, pyStrip, dropWhile_rtrimWs_dropWhile, rtrimWs_rtrimWs]

theorem dropWhile_map_asciiLower (l : List Char) :
    (l.map asciiLower).dropWhile isPySpace = (l.dropWhile isPySpace).map asciiLower := by
  induction l with
  | nil => rfl
  | cons c r ih =>
    by_cases hc : isPySpace c
    · rw [List.map_cons, List.dropWhile_cons_of_pos (by rw [isPySpace_asciiLower]; exact hc),
        List.dropWhile_cons_of_pos hc, ih]
    · rw [List.map_cons, List.dropWhile_cons_of_neg (by rw [isPySpace_asciiLower]; exact hc),
        List.dropWhile_cons_of_neg hc, List.map_cons]

theorem rtrimWs_map_asciiLower (l : List Char) :
    rtrimWs (l.map asciiLower) = (rtrimWs l).map asciiLower := by
  induction l with
  | nil => rfl
  | cons c r ih =>
    rw [List.map_cons, rtrimWs, ih, rtrimWs]
    cases hr : rtrimWs r with
    | nil =>
      simp only [List.map_nil, isPySpace_asciiLower]
      by_cases hc : isPySpace c
      · simp [hc]
      · simp [hc]
    | cons y t => simp

theorem pyStrip_map_asciiLower (l : List Char) :
    pyStrip (l.map asciiLower) = (pyStrip l).map asciiLower := by
  rw [pyStrip, pyStrip, dropWhile_map_asciiLower, rtrimWs_map_asciiLower]

theorem map_asciiLower_idem (l : List Char) :
    (l.map asciiLower).map asciiLower = l.map asciiLower := by
  induction l with
  | nil => rfl
  | cons c r ih =>
    simp only [List.map_cons]
    rw [asciiLower_asciiLower, ih]

theorem noTwoWs_map_asciiLower (l : List Char) :
    noTwoWs (l.map asciiLower) = noTwoWs l := by
  induction l with
  | nil => rfl
  | cons a t ih =>
    cases t with
    | nil => rfl
    | cons b r =>
      rw [List.map_cons, List.map_cons, noTwoWs, noTwoWs, isPySpace_asciiLower,
        isPySpace_asciiLower, ← List.map_cons]
      rw [ih]

theorem hyphenTail_eq_none {rest : List Char} (h : '\n' ∉ rest) :
    hyphenTail rest = none := by
  cases rest with
  | nil => rfl
  | cons c rest2 =>
    by_cases hc : c = '-'
    · subst hc
      have hn : '\n' ∉ rest2.takeWhile isPySpace := fun hm =>
        h (List.mem_cons_of_mem _ ((List.takeWhile_sublist _).subset hm))
      rw [hyphenTail, if_pos rfl, if_neg hn]
    · rw [hyphenTail, if_neg hc]

theorem dehyphenate_eq_self (fuel : Nat) : ∀ l : List Char, '\n' ∉ l →
    dehyphenate fuel l = l := by
  induction fuel with
  | zero => intro l _; rfl
  | succ n ih =>
    intro l hl
    cases l with
    | nil => rfl
    | cons c1 rest =>
      have hr : '\n' ∉ rest := fun h => hl (List.mem_cons_of_mem _ h)
      rw [dehyphenate, hyphenTail_eq_none hr]
      by_cases hc : isAsciiAlpha c1
      · rw [if_pos hc, ih rest hr]
      · rw [if_neg hc, ih rest hr]

theorem numLineStrip_eq_self (fuel : Nat) : ∀ l : List Char, '\n' ∉ l →
    numLineStrip fuel l = l := by
  induction fuel with
  | zero => intro l _; rfl
  | succ n ih =>
    intro l hl
    cases l with
    | nil => rfl
    | cons c rest =>
      have hr : '\n' ∉ rest := fun h => hl (List.mem_cons_of_mem _ h)
      have hc : ¬ c = '\n' := fun h => hl (h ▸ List.mem_cons_self _ _)
      rw [numLineStrip, if_neg hc, ih rest hr]

theorem cleanChars_eq_normTail {l : List Char} (hl : l ≠ []) :
    cleanChars l =
      normTail (numLineStrip (dehyphenate l.length l).length (dehyphenate l.length l)) := by
  rw [cleanChars, if_neg hl]; rfl

theorem mem_normTail_ascii {t2 : List Char} {x : Char} (hx : x ∈ normTail t2) :
    x.toNat ≤ 127 := by
  rw [normTail] at hx
  rcases List.mem_map.mp hx with ⟨y, hy, rfl⟩
  refine asciiLower_toNat_le y ?_
  rcases mem_collapseRuns (mem_pyStrip hy) with h0 | ⟨h1, _⟩
  · subst h0; decide
  · rcases mem_collapseRuns h1 with h2 | ⟨_, h3⟩
    · subst h2; decide
    · simp only [isHighChar, decide_eq_false_iff_not, not_lt] at h3; exact h3

theorem noTwoWs_normTail (t2 : List Char) : noTwoWs (normTail t2) = true := by
  rw [normTail, noTwoWs_map_asciiLower]
  exact noTwoWs_pyStrip (noTwoWs_collapseRuns _ false)

theorem mem_normTail_ws_space {t2 : List Char} {x : Char} (hx : x ∈ normTail t2)
    (hws : isPySpace x = true) : x = ' ' := by
  rw [normTail] at hx
  rcases List.mem_map.mp hx with ⟨y, hy, rfl⟩
  rw [isPySpace_asciiLower] at hws
  rcases mem_collapseRuns (mem_pyStrip hy) with h0 | ⟨_, h2⟩
  · subst h0; rfl
  · rw [hws] at h2; simp at h2

theorem normTail_no_newline (t2 : List Char) : '\n' ∉ normTail t2 := by
  intro h
  have := mem_normTail_ws_space h (by decide)
  simp at this

theorem pyStrip_normTail (t2 : List Char) : pyStrip (normTail t2) = normTail t2 := by
  rw [normTail, pyStrip_map_asciiLower, pyStrip_pyStrip]

theorem map_asciiLower_normTail (t2 : List Char) :
    (normTail t2).map asciiLower = normTail t2 := by
  rw [normTail, map_asciiLower_idem]

theorem cleanChars_of_canonical {out : List Char}
    (hA : ∀ x ∈ out, x.toNat ≤ 127)
    (hW : noTwoWs out = true)
    (hS : ∀ x ∈ out, isPySpace x = true → x = ' ')
    (hP : pyStrip out = out)
    (hL : out.map asciiLower = out) : cleanChars out = out := by
  by_cases ho : out = []
  · rw [ho, cleanChars, if_pos rfl]
  · have hnl : '\n' ∉ out := fun h => by
      have := hS _ h (by decide); simp at this
    rw [cleanChars, if_neg ho]
    show List.map asciiLower (pyStrip (collapseRuns isPySpace false (collapseRuns isHighChar
      false (numLineStrip (dehyphenate out.length out).length (dehyphenate out.length out)))))
      = out
    rw [dehyphenate_eq_self _ out hnl, numLineStrip_eq_self _ out hnl,
      collapseRuns_eq_self_of_not (p := isHighChar)
        (fun c hc => by simp only [isHighChar, decide_eq_false_iff_not, not_lt]; exact hA c hc)
        false,
      (collapseRuns_ws_fixed hW hS).1, hP, hL]

/-- The claim C5: `clean_resume_text` (`normalize`) is idempotent. -/
theorem clean_resume_text_idempotent (t : String) :
    clean_resume_text (clean_resume_text t) = clean_resume_text t := by
  show (⟨cleanChars (cleanChars t.data)⟩ : String) = ⟨cleanChars t.data⟩
  by_cases hl : t.data = []
  · rw [hl]; rfl
  · rw [cleanChars_eq_normTail hl]
    congr 1
    exact cleanChars_of_canonical (fun x hx => mem_normTail_ascii hx) (noTwoWs_normTail _)
      (fun x hx => mem_normTail_ws_space hx) (pyStrip_normTail _) (map_asciiLower_normTail _)

/-- The claim C4, amended: every output of `clean_resume_text` is ASCII and
has no two adjacent whitespace characters.  (The original printable-ASCII
claim fails: ASCII control characters below `\x20` survive cleaning, see the
counterexample below.) -/
theorem clean_resume_text_ascii_single_ws (t : String) :
    allAscii (clean_resume_text t).data = true ∧ noTwoWs (clean_resume_text t).data = true := by
  show allAscii (cleanChars t.data) = true ∧ noTwoWs (cleanChars t.data) = true
  by_cases hl : t.data = []
  · rw [hl]; exact ⟨rfl, rfl⟩
  · rw [cleanChars_eq_normTail hl]
    refine ⟨List.all_eq_true.mpr fun x hx => ?_, noTwoWs_normTail _⟩
    exact decide_eq_true (mem_normTail_ascii hx)

/-- Counterexample to the claim C4 as stated: on the one-character input
`"\x01"` the cleaner returns `"\x01"` unchanged, and `\x01` lies outside the
printable ASCII range 0x20 to 0x7E. -/
theorem clean_resume_text_not_printable :
    clean_resume_text "\x01" = "\x01" ∧
      ¬ (∀ c ∈ (clean_resume_text "\x01").data, 32 ≤ c.toNat ∧ c.toNat ≤ 126) := by
  constructor
  · decide
  · intro h
    exact absurd (h '\x01' (by decide)) (by decide)

/-- The claim C7: `extract_phone_number` finds the three candidate shapes,
strips the non-digits from each candidate, and returns the first candidate
whose digit count lies between 10 and 15 inclusive (`none` when no candidate
qualifies); moreover a returned value is all digits with length in range, and
`extract_phone_number "call me at 555-123-4567 thanks"` is `"5551234567"`. -/
theorem extract_phone_number_spec :
    (∀ t : String, extract_phone_number t =
      (((findPhones t.data.length t.data).map fun p => p.filter isAsciiDigit).find? fun p =>
        decide (10 ≤ p.length) && decide (p.length ≤ 15)).map fun l => (⟨l⟩ : String)) ∧
    (∀ (t p : String), extract_phone_number t = some p →
      10 ≤ p.length ∧ p.length ≤ 15 ∧ p.data.all isAsciiDigit = true) ∧
    extract_phone_number "call me at 555-123-4567 thanks" = some "5551234567" := by
  refine ⟨fun t => rfl, fun t p h => ?_, by decide⟩
  rw [extract_phone_number] at h
  rcases Option.map_eq_some'.mp h with ⟨l, hfind, rfl⟩
  have hpred := List.find?_some hfind
  simp only [Bool.and_eq_true, decide_eq_true_eq] at hpred
  have hmem := List.mem_of_find?_eq_some hfind
  rcases List.mem_map.mp hmem with ⟨orig, _, rfl⟩
  refine ⟨hpred.1, hpred.2, ?_⟩
  exact List.all_eq_true.mpr fun x hx => (List.mem_filter.mp hx).2

theorem extract_phone_number_spec_witness :
    10 ≤ ("5551234567" : String).length ∧ ("5551234567" : String).length ≤ 15 ∧
      ("5551234567" : String).data.all isAsciiDigit = true :=
  extract_phone_number_spec.2.1 "call me at 555-123-4567 thanks" "5551234567" (by decide)

/-- The claim C8: when the catalog loads, every returned entry is a
(lowercased, stripped) catalog entry and occurs in the text as a whole word in
the sense of the `\b`-bounded search; when the catalog file is missing,
`extract_skills` returns the single-element diagnostic list. -/
theorem extract_skills_spec :
    (∀ t : String,
      extract_skills none t = ["WARNING: skills.txt missing. Cannot extract skills."]) ∧
    (∀ (fileLines : List String) (t s : String),
      s ∈ extract_skills (some fileLines) t →
        s ∈ fileLines.map (fun line => ((⟨(pyStrip line.data).map asciiLower⟩ : String))) ∧
        wordSearch s.data t.data = true) := by
  refine ⟨fun t => rfl, fun fileLines t s h => ?_⟩
  rw [extract_skills] at h
  have h2 := List.mem_dedup.mp h
  exact ⟨(List.mem_filter.mp h2).1, (List.mem_filter.mp h2).2⟩

theorem extract_skills_spec_witness :
    ("python" : String) ∈ (["Python ", "java"] : List String).map
        (fun line => ((⟨(pyStrip line.data).map asciiLower⟩ : String))) ∧
      wordSearch "python".data "i know python well".data = true :=
  extract_skills_spec.2 ["Python ", "java"] "i know python well" "python" (by decide)

/-- The claim C9: with the model loaded and its annotated spans taken as
given, `extract_nlp_entities` returns at most 5 results, deduplicated, each
formatted from a span whose label is `ORG` or `DATE` or whose text contains
`education` or `experience` case-insensitively, and which has more than one
token or label `DATE`; with the model not loaded it returns the
model-not-loaded failure value without running the model. -/
theorem extract_nlp_entities_spec :
    (∀ t : String,
      extract_nlp_entities none t = .failure "NLP model not loaded. Check setup.") ∧
    (∀ (nlpFn : String → List EntSpan) (t : String) (l : List String),
      extract_nlp_entities (some nlpFn) t = .ok l →
        l.length ≤ 5 ∧ l.Nodup ∧
        ∀ s ∈ l, ∃ e ∈ nlpFn t,
          ((e.label == "ORG" || e.label == "DATE")
            || containsSub "education".data (e.text.data.map asciiLower)
            || containsSub "experience".data (e.text.data.map asciiLower)) = true ∧
          (decide (1 < countTokens false (pyStrip e.text.data)) || e.label == "DATE") = true ∧
          s = (⟨pyStrip e.text.data⟩ : String) ++ " (" ++ e.label ++ ")") := by
  refine ⟨fun t => rfl, fun nlpFn t l h => ?_⟩
  rw [extract_nlp_entities] at h
  injection h with h
  subst h
  refine ⟨List.length_take_le _ _, (List.nodup_dedup _).sublist (List.take_sublist _ _),
    fun s hs => ?_⟩
  have hkept := List.mem_dedup.mp ((List.take_sublist _ _).subset hs)
  rcases List.mem_filterMap.mp hkept with ⟨e, he, hbody⟩
  refine ⟨e, he, ?_⟩
  rw [keepEntity] at hbody
  split at hbody
  · split at hbody
    · exact ⟨‹_›, ‹_›, (Option.some.inj hbody).symm⟩
    · cases hbody
  · cases hbody

theorem extract_nlp_entities_spec_witness :
    (["acme corp (ORG)"] : List String).length ≤ 5 ∧
      (["acme corp (ORG)"] : List String).Nodup ∧
      ∀ s ∈ (["acme corp (ORG)"] : List String),
        ∃ e ∈ (fun _ : String => [EntSpan.mk "acme corp" "ORG"]) "x",
          ((e.label == "ORG" || e.label == "DATE")
            || containsSub "education".data (e.text.data.map asciiLower)
            || containsSub "experience".data (e.text.data.map asciiLower)) = true ∧
          (decide (1 < countTokens false (pyStrip e.text.data)) || e.label == "DATE") = true ∧
          s = (⟨pyStrip e.text.data⟩ : String) ++ " (" ++ e.label ++ ")" :=
  extract_nlp_entities_spec.2 (fun _ => [EntSpan.mk "acme corp" "ORG"]) "x"
    ["acme corp (ORG)"] (by decide)

theorem pyTitle_length (b : Bool) (l : List Char) : (pyTitle b l).length = l.length := by
  induction l generalizing b with
  | nil => rfl
  | cons c r ih =>
    rw [pyTitle]
    by_cases hc : isAsciiAlpha c
    · rw [if_pos hc]; simp [ih]
    · rw [if_neg hc]; simp [ih]

theorem matchTitleAt_ne_nil {l m : List Char} (h : matchTitleAt l = some m) : m ≠ [] := by
  cases l with
  | nil => cases h
  | cons c1 r1 =>
    rw [matchTitleAt] at h
    by_cases hu : isUpperAlpha c1 = true
    · rw [if_pos hu] at h
      rcases Option.map_eq_some'.mp h with ⟨t, _, rfl⟩
      simp
    · rw [if_neg hu] at h
      cases h

theorem findTitle_ne_nil {fuel : Nat} {l m : List Char}
    (h : findTitle fuel l = some m) : m ≠ [] := by
  induction fuel generalizing l with
  | zero => cases h
  | succ n ih =>
    cases l with
    | nil => cases h
    | cons c r =>
      rw [findTitle] at h
      cases hm : matchTitleAt (c :: r) with
      | some m2 => rw [hm] at h; injection h with h; subst h; exact matchTitleAt_ne_nil hm
      | none => rw [hm] at h; exact ih h

/-- The claim C10: `extract_name` always returns a non-empty string, for every
input, including the empty and all-whitespace strings: the branch kept by the
length test has at least 4 characters, a fallback match is non-empty, and the
sentinel is non-empty; `str.title()` preserves length. -/
theorem extract_name_ne_empty (raw : String) : extract_name raw ≠ "" := by
  simp only [extract_name]
  split
  · cases hf : findTitle raw.data.length raw.data with
    | some m =>
      intro heq
      have hdata := congrArg String.data heq
      simp only at hdata
      have := pyTitle_length false m
      rw [hdata] at this
      exact findTitle_ne_nil hf (List.length_eq_zero.mp this.symm)
    | none => decide
  · rename_i hcond
    push_neg at hcond
    intro heq
    have hdata := congrArg String.data heq
    simp only at hdata
    have hlen := pyTitle_length false
      (pyStrip ((pyStrip ((splitNl (pyStrip raw.data)).headD [])).filter fun c => !isSepChar c))
    rw [hdata] at hlen
    simp only [List.length_nil] at hlen
    omega

theorem sep_not_ws {c : Char} (h : isSepChar c = true) : isPySpace c = false := by
  simp only [isSepChar, Bool.or_eq_true, decide_eq_true_eq] at h
  rcases h with ⟨⟨rfl | rfl⟩ | rfl⟩ | rfl <;> decide

theorem ws_not_sep {c : Char} (h : isPySpace c = true) : (!isSepChar c) = true := by
  cases hs : isSepChar c
  · rfl
  · rw [sep_not_ws hs] at h; cases h

theorem filter_eq_self_ws {w : List Char} (hw : ∀ c ∈ w, isPySpace c = true) :
    w.filter (fun c => !isSepChar c) = w :=
  List.filter_eq_self.mpr fun c hc => ws_not_sep (hw c hc)

theorem mem_takeWhile_pred {p : Char → Bool} {l : List Char} {x : Char}
    (h : x ∈ l.takeWhile p) : p x = true := by
  induction l with
  | nil => simp at h
  | cons c r ih =>
    by_cases hc : p c
    · rw [List.takeWhile_cons_of_pos hc] at h
      rcases List.mem_cons.mp h with rfl | h2
      · exact hc
      · exact ih h2
    · rw [List.takeWhile_cons_of_neg hc] at h; simp at h

theorem takeWhile_append_all {p : Char → Bool} {l1 : List Char} (l2 : List Char)
    (h : ∀ c ∈ l1, p c = true) : (l1 ++ l2).takeWhile p = l1 ++ l2.takeWhile p := by
  induction l1 with
  | nil => rfl
  | cons c r ih =>
    rw [List.cons_append, List.takeWhile_cons_of_pos (h c (List.mem_cons_self _ _)),
      ih fun x hx => h x (List.mem_cons_of_mem _ hx), List.cons_append]

theorem takeWhile_eq_self_of_all {p : Char → Bool} {l : List Char}
    (h : ∀ c ∈ l, p c = true) : l.takeWhile p = l := by
  have := takeWhile_append_all (p := p) [] h
  simpa using this

theorem takeWhile_append_stop {p : Char → Bool} {l1 : List Char} (l2 : List Char)
    (h : ¬ ∀ c ∈ l1, p c = true) : (l1 ++ l2).takeWhile p = l1.takeWhile p := by
  induction l1 with
  | nil => exact absurd (by simp) h
  | cons c r ih =>
    by_cases hc : p c
    · have hr : ¬ ∀ x ∈ r, p x = true := fun hall => h fun x hx => by
        rcases List.mem_cons.mp hx with rfl | h2
        · exact hc
        · exact hall x h2
      rw [List.cons_append, List.takeWhile_cons_of_pos hc, List.takeWhile_cons_of_pos hc, ih hr]
    · rw [List.cons_append, List.takeWhile_cons_of_neg hc, List.takeWhile_cons_of_neg hc]

theorem dropWhile_ws_append {w : List Char} (u : List Char)
    (hw : ∀ c ∈ w, isPySpace c = true) :
    (w ++ u).dropWhile isPySpace = u.dropWhile isPySpace := by
  induction w with
  | nil => rfl
  | cons c r ih =>
    rw [List.cons_append, List.dropWhile_cons_of_pos (hw c (List.mem_cons_self _ _)),
      ih fun x hx => hw x (List.mem_cons_of_mem _ hx)]

theorem dropWhile_append_of_ne_nil {p : Char → Bool} {u : List Char} (v : List Char)
    (h : u.dropWhile p ≠ []) : (u ++ v).dropWhile p = u.dropWhile p ++ v := by
  induction u with
  | nil => exact absurd rfl h
  | cons c r ih =>
    by_cases hc : p c
    · rw [List.dropWhile_cons_of_pos hc] at h
      rw [List.cons_append, List.dropWhile_cons_of_pos hc, List.dropWhile_cons_of_pos hc, ih h]
    · rw [List.cons_append, List.dropWhile_cons_of_neg hc, List.dropWhile_cons_of_neg hc,
        List.cons_append]

theorem pyStrip_cons_ws {c : Char} {r : List Char} (hc : isPySpace c = true) :
    pyStrip (c :: r) = pyStrip r := by
  rw [pyStrip, pyStrip, List.dropWhile_cons_of_pos hc]

theorem pyStrip_ws_append {w : List Char} (u : List Char)
    (hw : ∀ c ∈ w, isPySpace c = true) : pyStrip (w ++ u) = pyStrip u := by
  rw [pyStrip, pyStrip, dropWhile_ws_append u hw]

theorem pyStrip_append_ws {u w : List Char} (hw : ∀ c ∈ w, isPySpace c = true) :
    pyStrip (u ++ w) = pyStrip u := by
  rw [pyStrip, pyStrip]
  cases hd : u.dropWhile isPySpace with
  | nil =>
    have huws : ∀ c ∈ u, isPySpace c = true := List.dropWhile_eq_nil_iff.mp hd
    have h2 : (u ++ w).dropWhile isPySpace = [] := List.dropWhile_eq_nil_iff.mpr fun x hx => by
      rcases List.mem_append.mp hx with h3 | h3
      · exact huws x h3
      · exact hw x h3
    rw [h2]
  | cons d t =>
    rw [dropWhile_append_of_ne_nil w (by rw [hd]; simp), rtrimWs_append_ws hw, hd]

theorem rtrimWs_decomp (l : List Char) :
    ∃ w, l = rtrimWs l ++ w ∧ ∀ c ∈ w, isPySpace c = true := by
  induction l with
  | nil => exact ⟨[], rfl, by simp⟩
  | cons c r ih =>
    obtain ⟨w, hw, hws⟩ := ih
    cases hr : rtrimWs r with
    | nil =>
      have hrw : r = w := by rw [hr] at hw; exact hw
      by_cases hc : isPySpace c
      · have hshape : rtrimWs (c :: r) = [] := by rw [rtrimWs, hr]; simp [hc]
        refine ⟨c :: r, by rw [hshape]; rfl, fun x hx => ?_⟩
        rcases List.mem_cons.mp hx with rfl | h2
        · exact hc
        · exact hws x (hrw ▸ h2)
      · have hshape : rtrimWs (c :: r) = [c] := by rw [rtrimWs, hr]; simp [hc]
        exact ⟨w, by rw [hshape, ← hrw]; rfl, hws⟩
    | cons y t =>
      have hshape : rtrimWs (c :: r) = c :: y :: t := by rw [rtrimWs, hr]
      refine ⟨w, ?_, hws⟩
      rw [hshape, ← hr]
      rw [List.cons_append, ← hw]

theorem pyStrip_filter_pyStrip (x : List Char) :
    pyStrip ((pyStrip x).filter fun c => !isSepChar c)
      = pyStrip (x.filter fun c => !isSepChar c) := by
  obtain ⟨w2, hx2, hw2⟩ := rtrimWs_decomp (x.dropWhile isPySpace)
  have hx : x = x.takeWhile isPySpace ++ (pyStrip x ++ w2) := by
    conv_lhs => rw [← List.takeWhile_append_dropWhile (p := isPySpace) (l := x)]
    rw [pyStrip, ← hx2]
  have htws : ∀ c ∈ x.takeWhile isPySpace, isPySpace c = true := fun c hc =>
    mem_takeWhile_pred hc
  conv_rhs => rw [hx]
  rw [List.filter_append, List.filter_append, filter_eq_self_ws htws, filter_eq_self_ws hw2,
    pyStrip_ws_append _ htws, pyStrip_append_ws hw2]

theorem splitNl_ne_nil (l : List Char) : splitNl l ≠ [] := by
  cases l with
  | nil => simp [splitNl]
  | cons c r =>
    rw [splitNl]
    by_cases hc : c = '\n'
    · simp [hc]
    · rw [if_neg hc]
      cases hs : splitNl r with
      | nil => simp
      | cons h t => simp

theorem headD_splitNl (l : List Char) :
    (splitNl l).headD [] = l.takeWhile (fun c => c ≠ '\n') := by
  induction l with
  | nil => rfl
  | cons c r ih =>
    by_cases hc : c = '\n'
    · subst hc
      rw [splitNl, if_pos rfl, List.takeWhile_cons_of_neg (by simp)]
      rfl
    · cases hs : splitNl r with
      | nil => exact absurd hs (splitNl_ne_nil r)
      | cons h t =>
        have hshape : splitNl (c :: r) = (c :: h) :: t := by rw [splitNl, if_neg hc, hs]
        have htw : (c :: r).takeWhile (fun c => c ≠ '\n')
            = c :: r.takeWhile (fun c => c ≠ '\n') := by
          rw [List.takeWhile_cons]
          simp [hc]
        have hh : h = r.takeWhile (fun c => c ≠ '\n') := by rw [← ih, hs]; rfl
        rw [hshape, htw, ← hh]
        rfl

theorem strip_filter_takeWhile_rtrimWs (x : List Char) :
    pyStrip (((rtrimWs x).takeWhile (fun c => c ≠ '\n')).filter fun c => !isSepChar c)
      = pyStrip ((x.takeWhile (fun c => c ≠ '\n')).filter fun c => !isSepChar c) := by
  obtain ⟨w, hx, hws⟩ := rtrimWs_decomp x
  by_cases hall : ∀ c ∈ rtrimWs x, (fun c => decide (c ≠ '\n')) c = true
  · conv_rhs => rw [hx]
    rw [takeWhile_append_all _ hall, takeWhile_eq_self_of_all hall, List.filter_append,
      filter_eq_self_ws fun c hc => hws c ((List.takeWhile_sublist _).subset hc),
      pyStrip_append_ws fun c hc => hws c ((List.takeWhile_sublist _).subset hc)]
  · conv_rhs => rw [hx]
    rw [takeWhile_append_stop _ hall]

theorem firstline_eq_firstNonBlank (raw : List Char) :
    pyStrip (((pyStrip raw).takeWhile (fun c => c ≠ '\n')).filter fun c => !isSepChar c)
      = pyStrip ((firstNonBlankLine raw).filter fun c => !isSepChar c) := by
  induction raw with
  | nil => rfl
  | cons c r ih =>
    by_cases hc : isPySpace c
    · rw [pyStrip_cons_ws hc, ih]
      by_cases hnl : c = '\n'
      · subst hnl
        have hfb : firstNonBlankLine ('\n' :: r) = firstNonBlankLine r := by
          rw [firstNonBlankLine, firstNonBlankLine, splitNl, if_pos rfl,
            List.find?_cons_of_neg _ (by simp)]
        rw [hfb]
      · cases hs : splitNl r with
        | nil => exact absurd hs (splitNl_ne_nil r)
        | cons h t =>
          have hshape : splitNl (c :: r) = (c :: h) :: t := by rw [splitNl, if_neg hnl, hs]
          by_cases hp : (!(h.dropWhile isPySpace).isEmpty) = true
          · have hp2 : (!((c :: h).dropWhile isPySpace).isEmpty) = true := by
              rw [List.dropWhile_cons_of_pos hc]; exact hp
            have h1 : firstNonBlankLine (c :: r) = c :: h := by
              rw [firstNonBlankLine, hshape,
                List.find?_cons_of_pos (p := fun l : List Char => !(l.dropWhile isPySpace).isEmpty) _ hp2]
              rfl
            have h2 : firstNonBlankLine r = h := by
              rw [firstNonBlankLine, hs,
                List.find?_cons_of_pos (p := fun l : List Char => !(l.dropWhile isPySpace).isEmpty) _ hp]
              rfl
            rw [h1, h2,
              List.filter_cons_of_pos (p := fun c => !isSepChar c) (ws_not_sep hc),
              pyStrip_cons_ws hc]
          · have hp2 : ¬ (!((c :: h).dropWhile isPySpace).isEmpty) = true := by
              rw [List.dropWhile_cons_of_pos hc]; exact hp
            have h1 : firstNonBlankLine (c :: r) = firstNonBlankLine r := by
              rw [firstNonBlankLine, firstNonBlankLine, hshape, hs,
                List.find?_cons_of_neg
                  (p := fun l : List Char => !(l.dropWhile isPySpace).isEmpty) _ hp2,
                List.find?_cons_of_neg
                  (p := fun l : List Char => !(l.dropWhile isPySpace).isEmpty) _ hp]
            rw [h1]
    · have hnl : ¬ c = '\n' := fun h => by
        subst h
        exact absurd (by decide : isPySpace '\n' = true) (by simpa using hc)
      cases hs : splitNl r with
      | nil => exact absurd hs (splitNl_ne_nil r)
      | cons h t =>
        have hshape : splitNl (c :: r) = (c :: h) :: t := by rw [splitNl, if_neg hnl, hs]
        have hp2 : (!((c :: h).dropWhile isPySpace).isEmpty) = true := by
          rw [List.dropWhile_cons_of_neg (by simp [hc])]; simp
        have h1 : firstNonBlankLine (c :: r) = c :: h := by
          rw [firstNonBlankLine, hshape,
            List.find?_cons_of_pos (p := fun l : List Char => !(l.dropWhile isPySpace).isEmpty) _ hp2]
          rfl
        have hh : h = r.takeWhile (fun c => c ≠ '\n') := by
          have := headD_splitNl r
          rw [hs] at this
          exact this
        have hL : pyStrip (c :: r) = rtrimWs (c :: r) := by
          rw [pyStrip, List.dropWhile_cons_of_neg (by simp [hc])]
        have htw : (c :: r).takeWhile (fun c => c ≠ '\n')
            = c :: r.takeWhile (fun c => c ≠ '\n') := by
          rw [List.takeWhile_cons]
          simp [hnl]
        rw [hL, h1, hh, strip_filter_takeWhile_rtrimWs (c :: r), htw]

theorem name_candidate_eq (raw : List Char) :
    pyStrip ((pyStrip ((splitNl (pyStrip raw)).headD [])).filter fun c => !isSepChar c)
      = pyStrip ((firstNonBlankLine raw).filter fun c => !isSepChar c) := by
  rw [pyStrip_filter_pyStrip, headD_splitNl, firstline_eq_firstNonBlank]

/-- The claim C6: `extract_name` takes the first non-empty line of the raw
text (the first line with any non-whitespace content), removes the separator
characters `|`, `:`, `,`, `-` and trims whitespace; when the candidate has
more than 5 whitespace-separated tokens or fewer than 4 characters, it
returns the title-cased first Title-Case two-or-three-word match of the whole
raw text, or the literal sentinel `"N/A (Failed Fallback)"` when there is no
match; otherwise it returns the title-cased candidate.  (The source computes
the candidate as the first line of the globally stripped text; the equality
with the first non-empty line is the content of `name_candidate_eq`.) -/
theorem extract_name_spec (raw : String) :
    extract_name raw =
      (let cand := pyStrip ((firstNonBlankLine raw.data).filter fun c => !isSepChar c)
       if 5 < countTokens false cand ∨ cand.length < 4 then
         match findTitle raw.data.length raw.data with
         | some m => (⟨pyTitle false m⟩ : String)
         | none => "N/A (Failed Fallback)"
       else (⟨pyTitle false cand⟩ : String)) := by
  simp only [extract_name]
  rw [name_candidate_eq raw.data]

theorem containsSub_of_head {needle hay : List Char} (h : needle.isPrefixOf hay = true) :
    containsSub needle hay = true := by
  rw [containsSub]
  refine List.any_eq_true.mpr ⟨0, List.mem_range.mpr (by omega), ?_⟩
  simpa using h

/-- The claim C2: every `parse_resume` result is either the error-only record
or the full seven-field record, never a mix. -/
theorem parse_resume_two_shapes (file_path : String) (pdfFile : FsOutcome (List (Option String)))
    (docxFile : FsOutcome (List String)) (skillsFile : Option (List String))
    (nlpModel : Option (String → List EntSpan)) :
    (∃ m, parse_resume file_path pdfFile docxFile skillsFile nlpModel = .err m ∧
      resultFields (parse_resume file_path pdfFile docxFile skillsFile nlpModel) = ["error"]) ∨
    (∃ r, parse_resume file_path pdfFile docxFile skillsFile nlpModel = .ok r ∧
      resultFields (parse_resume file_path pdfFile docxFile skillsFile nlpModel) =
        ["name", "email", "phone", "urls", "skills", "nlp_entities", "raw_text_length"]) := by
  rcases hP : parse_resume file_path pdfFile docxFile skillsFile nlpModel with m | r
  · exact Or.inl ⟨m, rfl, rfl⟩
  · exact Or.inr ⟨r, rfl, rfl⟩

/-- Counterexample to the claim C1 as stated: here text extraction succeeds
(the library returns the page text `"Error handling expert"`), yet
`parse_resume` returns the error-only record, because success is detected by
the absence of the substring `"Error"` in the extracted text. -/
theorem parse_resume_error_substring_counterexample :
    parse_resume "resume.pdf" (.ok [some "Error handling expert"]) (.ok [])
      (some []) (some fun _ => []) = .err "Error handling expert" := by decide

/-- The claim C1, amended: a document-level failure (unsupported extension,
missing file, extraction-library failure) always yields the error-only
record; an extraction success yields the full record only when the extracted
text does not contain the substring `"Error"`, and yields the error-only
record (carrying the raw text) when it does. -/
theorem parse_resume_error_conditions (file_path : String)
    (pdfFile : FsOutcome (List (Option String))) (docxFile : FsOutcome (List String))
    (skillsFile : Option (List String)) (nlpModel : Option (String → List EntSpan)) :
    (lowerEndsWith file_path ".pdf" = false → lowerEndsWith file_path ".docx" = false →
      parse_resume file_path pdfFile docxFile skillsFile nlpModel =
        .err "Unsupported file type. Must be PDF or DOCX.") ∧
    (lowerEndsWith file_path ".pdf" = true → pdfFile = .missing →
      parse_resume file_path pdfFile docxFile skillsFile nlpModel =
        .err "Error: File not found.") ∧
    (lowerEndsWith file_path ".pdf" = true → ∀ e, pdfFile = .failed e →
      parse_resume file_path pdfFile docxFile skillsFile nlpModel =
        .err ("Error extracting PDF: " ++ e)) ∧
    (lowerEndsWith file_path ".pdf" = true → ∀ pages, pdfFile = .ok pages →
      containsSub "Error".data (extract_text_from_pdf (.ok pages)).data = true →
      parse_resume file_path pdfFile docxFile skillsFile nlpModel =
        .err (extract_text_from_pdf (.ok pages))) ∧
    (lowerEndsWith file_path ".pdf" = true → ∀ pages, pdfFile = .ok pages →
      containsSub "Error".data (extract_text_from_pdf (.ok pages)).data = false →
      ∃ r, parse_resume file_path pdfFile docxFile skillsFile nlpModel = .ok r) ∧
    (lowerEndsWith file_path ".pdf" = false → lowerEndsWith file_path ".docx" = true →
      docxFile = .missing →
      parse_resume file_path pdfFile docxFile skillsFile nlpModel =
        .err "Error: File not found.") ∧
    (lowerEndsWith file_path ".pdf" = false → lowerEndsWith file_path ".docx" = true →
      ∀ e, docxFile = .failed e →
      parse_resume file_path pdfFile docxFile skillsFile nlpModel =
        .err ("Error extracting DOCX: " ++ e)) ∧
    (lowerEndsWith file_path ".pdf" = false → lowerEndsWith file_path ".docx" = true →
      ∀ paras, docxFile = .ok paras →
      containsSub "Error".data (extract_text_from_docx (.ok paras)).data = true →
      parse_resume file_path pdfFile docxFile skillsFile nlpModel =
        .err (extract_text_from_docx (.ok paras))) ∧
    (lowerEndsWith file_path ".pdf" = false → lowerEndsWith file_path ".docx" = true →
      ∀ paras, docxFile = .ok paras →
      containsSub "Error".data (extract_text_from_docx (.ok paras)).data = false →
      ∃ r, parse_resume file_path pdfFile docxFile skillsFile nlpModel = .ok r) := by
  refine ⟨?_, ?_, ?_, ?_, ?_, ?_, ?_, ?_, ?_⟩
  · intro h1 h2
    rw [parse_resume, if_neg (by simp [h1]), if_neg (by simp [h2])]
  · intro h1 h2
    rw [parse_resume, if_pos h1, h2, assemble, if_pos (by decide)]
    rfl
  · intro h1 e h2
    have hpre : ("Error".data).isPrefixOf
        (("Error extracting PDF: " ++ e) : String).data = true := by
      rw [String.data_append]; rfl
    have hred : extract_text_from_pdf (FsOutcome.failed e) = "Error extracting PDF: " ++ e := rfl
    rw [parse_resume, if_pos h1, h2, hred, assemble, if_pos (containsSub_of_head hpre)]
  · intro h1 pages h2 h3
    rw [parse_resume, if_pos h1, h2, assemble, if_pos h3]
  · intro h1 pages h2 h3
    rw [parse_resume, if_pos h1, h2, assemble, if_neg (by simp [h3])]
    exact ⟨_, rfl⟩
  · intro h1 h2 h3
    rw [parse_resume, if_neg (by simp [h1]), if_pos h2, h3, assemble, if_pos (by decide)]
    rfl
  · intro h1 h2 e h3
    have hpre : ("Error".data).isPrefixOf
        (("Error extracting DOCX: " ++ e) : String).data = true := by
      rw [String.data_append]; rfl
    have hred : extract_text_from_docx (FsOutcome.failed e) = "Error extracting DOCX: " ++ e :=
      rfl
    rw [parse_resume, if_neg (by simp [h1]), if_pos h2, h3, hred, assemble,
      if_pos (containsSub_of_head hpre)]
  · intro h1 h2 paras h3 h4
    rw [parse_resume, if_neg (by simp [h1]), if_pos h2, h3, assemble, if_pos h4]
  · intro h1 h2 paras h3 h4
    rw [parse_resume, if_neg (by simp [h1]), if_pos h2, h3, assemble, if_neg (by simp [h4])]
    exact ⟨_, rfl⟩

theorem parse_resume_error_conditions_witness :
    ∃ r, parse_resume "cv.pdf" (.ok [some "jane doe"]) (.ok []) (some [])
      (some fun _ => []) = .ok r :=
  (parse_resume_error_conditions "cv.pdf" (.ok [some "jane doe"]) (.ok []) (some [])
    (some fun _ => [])).2.2.2.2.1 (by decide) [some "jane doe"] rfl (by decide)

theorem wordSearch_empty_text (s : List Char) : wordSearch s [] = false := by
  rw [wordSearch]
  have hb : isBoundary ([] : List Char) 0 = false := by decide
  simp [hb]

theorem extract_skills_empty_text (catalogLines : List String) :
    extract_skills (some catalogLines) "" = [] := by
  rw [extract_skills]
  have hfil : (catalogLines.map fun line =>
      ((⟨(pyStrip line.data).map asciiLower⟩ : String))).filter
        (fun skill => wordSearch skill.data ("" : String).data) = [] := by
    refine List.filter_eq_nil_iff.mpr fun a _ => ?_
    rw [show ("" : String).data = [] from rfl, wordSearch_empty_text]
    simp
  rw [hfil]
  rfl

/-- Counterexample to the claim C3 as stated: on a PDF with no extractable
text the parser does return a success record with `raw_text_length = 0` and
null/empty contact fields, but the `name` field is the non-empty sentinel
`"N/A (Failed Fallback)"`, not null or empty. -/
theorem parse_resume_empty_pdf_counterexample :
    parse_resume "scan.pdf" (.ok [none, some ""]) (.ok []) (some ["python"])
        (some fun _ => []) =
      .ok { name := "N/A (Failed Fallback)", email := none, phone := none, urls := [],
            skills := [], nlp_entities := .ok [], raw_text_length := 0 } ∧
    ("N/A (Failed Fallback)" : String) ≠ "" := ⟨by decide, by decide⟩

/-- The claim C3, amended: for a PDF in which no page yields extractable
text, the extractor returns the empty string (not a failure), and
`parse_resume` returns a ParsedResume (not an error record) with
`raw_text_length = 0`, null email and phone, empty urls, skills and entities
(given a loaded catalog and a model returning no spans on the empty string),
and `name` equal to the fallback sentinel `"N/A (Failed Fallback)"` rather
than null or empty. -/
theorem parse_resume_empty_pdf (file_path : String) (pages : List (Option String))
    (docxFile : FsOutcome (List String)) (catalogLines : List String)
    (nlpFn : String → List EntSpan)
    (hext : lowerEndsWith file_path ".pdf" = true)
    (hpages : pages.filterMap truthyPage = [])
    (hnlp : nlpFn "" = []) :
    extract_text_from_pdf (.ok pages) = "" ∧
    parse_resume file_path (.ok pages) docxFile (some catalogLines) (some nlpFn) =
      .ok { name := "N/A (Failed Fallback)", email := none, phone := none, urls := [],
            skills := [], nlp_entities := .ok [], raw_text_length := 0 } := by
  have hraw : extract_text_from_pdf (.ok pages) = "" := by
    show String.intercalate "\n" (pages.filterMap truthyPage) = ""
    rw [hpages]
    rfl
  refine ⟨hraw, ?_⟩
  rw [parse_resume, if_pos hext, hraw, assemble,
    if_neg (show ¬ containsSub "Error".data ("" : String).data = true by decide)]
  have hclean : clean_resume_text "" = "" := rfl
  show ParseResult.ok
      { name := extract_name "", email := extract_email (clean_resume_text ""),
        phone := extract_phone_number (clean_resume_text ""),
        urls := extract_urls (clean_resume_text ""),
        skills := extract_skills (some catalogLines) (clean_resume_text ""),
        nlp_entities := extract_nlp_entities (some nlpFn) (clean_resume_text ""),
        raw_text_length := ("" : String).length } = _
  rw [hclean, extract_skills_empty_text]
  have hent : extract_nlp_entities (some nlpFn) "" = .ok [] := by
    show EntResult.ok (((nlpFn "").filterMap keepEntity).dedup.take 5) = .ok []
    rw [hnlp]
    rfl
  rw [hent]
  rfl

theorem parse_resume_empty_pdf_witness :
    extract_text_from_pdf (.ok [none, some ""]) = "" ∧
    parse_resume "blank.pdf" (.ok [none, some ""]) (.ok []) (some ["python"])
        (some fun _ => []) =
      .ok { name := "N/A (Failed Fallback)", email := none, phone := none, urls := [],
            skills := [], nlp_entities := .ok [], raw_text_length := 0 } :=
  parse_resume_empty_pdf "blank.pdf" [none, some ""] (.ok []) ["python"] (fun _ => [])
    (by decide) (by decide) rfl
